import Mathlib

/-!
Verification of the SAE-PK confirm-message subsystem (src/common/sae_pk.c)
against its natural-language specification.  Byte values are modelled as
natural numbers (with explicit `% 256` where the C code truncates to u8),
C strings as lists of characters, and fallible C functions as
Option-returning Lean functions.  External crypto collaborators
(hashing, AES-SIV, ECDSA, element scanning) are parameters, following the
collaborator contracts of the specification.
-/

set_option maxHeartbeats 1000000

/-! ## Definitions: base-32 codec -/

/-- RFC 4648 base 32 alphabet with lowercase characters
(C: sae_pk_base32_table). -/
def sae_pk_base32_table : List Char := "abcdefghijklmnopqrstuvwxyz234567".toList

/-- The character-position loop of sae_pk_valid_password: at every position
pos with pos > 0 and pos % 5 == 4 the character must be a dash, at every
other position it must belong to the base-32 alphabet. -/
def pwLoop : List Char → Nat → Bool
  | [], _ => true
  | c :: rest, pos =>
    if 0 < pos ∧ pos % 5 = 4 then
      if c = '-' then pwLoop rest (pos + 1) else false
    else
      if sae_pk_base32_table.contains c then pwLoop rest (pos + 1) else false

/-- C: sae_pk_valid_password.  Length at least 9, the position checks of
`pwLoop`, the string non-empty, and the final character not a dash. -/
def sae_pk_valid_password (pw : List Char) : Bool :=
  if pw.length < 9 then false
  else if pwLoop pw 0 then
    if pw.length = 0 then false
    else decide (pw.getD (pw.length - 1) ' ' ≠ '-')
  else false

/-- The per-position requirement of the password loop. -/
def pwCharOk (pos : Nat) (c : Char) : Prop :=
  if 0 < pos ∧ pos % 5 = 4 then c = '-' else c ∈ sae_pk_base32_table

/-- C: add_char.  Appends one base-32 character to the output, preceded by a
dash separator whenever the current output length is congruent to 4 mod 5,
and decrements the remaining bit budget by 5 (emitting nothing once the
budget is exhausted). -/
def add_char (out : List Char) (idx : Nat) (bits : Nat) : List Char × Nat :=
  if bits = 0 then (out, bits)
  else
    let bits2 := if 5 < bits then bits - 5 else 0
    let out2 := if out.length % 5 = 4 then out ++ ['-'] else out
    (out2 ++ [sae_pk_base32_table.getD idx 'a'], bits2)

/-- Iterated add_char over a list of 5-bit values, threading the output and
the remaining bit budget. -/
def addChars : List Nat → List Char × Nat → List Char × Nat
  | [], st => st
  | d :: ds, st => addChars ds (add_char st.1 d st.2)

/-- The eight 5-bit groups of one 40-bit block, most significant first
(the values of (block >> j*5) & 0x1f for j = 7 down to 0). -/
def blockDigits (block : Nat) : List Nat :=
  [(block >>> 35) % 32, (block >>> 30) % 32, (block >>> 25) % 32,
   (block >>> 20) % 32, (block >>> 15) % 32, (block >>> 10) % 32,
   (block >>> 5) % 32, block % 32]

/-- The inner j-loop of sae_pk_base32_encode: emit the eight 5-bit groups of
one 40-bit block, most significant first. -/
def emit8 (block : Nat) (out : List Char) (left : Nat) : List Char × Nat :=
  addChars (blockDigits block) (out, left)

/-- The 40-bit block formed from the next five input octets (missing octets
read as zero, the implicit right padding of the encoder). -/
def chunkBlock (l : List Nat) : Nat :=
  ((((l.getD 0 0) * 256 + l.getD 1 0) * 256 + l.getD 2 0) * 256 + l.getD 3 0) * 256
    + l.getD 4 0

/-- The i-loop of sae_pk_base32_encode: consume the input five octets at a
time; each complete (zero padded) group of five octets is one 40-bit block
passed through `emit8`. -/
def encChunks : List Nat → List Char → Nat → List Char
  | [], out, _ => out
  | [a], out, left => (emit8 (chunkBlock [a]) out left).1
  | [a, b], out, left => (emit8 (chunkBlock [a, b]) out left).1
  | [a, b, c], out, left => (emit8 (chunkBlock [a, b, c]) out left).1
  | [a, b, c, d], out, left => (emit8 (chunkBlock [a, b, c, d]) out left).1
  | a :: b :: c :: d :: e :: rest, out, left =>
    let st := emit8 (chunkBlock [a, b, c, d, e]) out left
    encChunks rest st.1 st.2

/-- C: sae_pk_base32_encode.  src is treated as a bit string of len_bits
bits stored in ⌈len_bits/8⌉ octets; fails when the octet count is zero or
too large for the size type. -/
def sae_pk_base32_encode (src : List Nat) (len_bits : Nat) : Option (List Char) :=
  let len := (len_bits + 7) / 8
  if len = 0 ∨ (2 ^ 64 - 1) / 8 ≤ len then none
  else some (encChunks (src.take len ++ List.replicate (len - src.length) 0) [] len_bits)

/-- First index of a character in a list, the scan that builds the decode
table of sae_pk_base32_decode. -/
def tableIdx : List Char → Char → Nat → Option Nat
  | [], _, _ => none
  | x :: rest, c, i => if x = c then some i else tableIdx rest c (i + 1)

/-- The decode table of sae_pk_base32_decode: alphabet characters map to
their index, the padding character maps to 0, everything else is skipped. -/
def dtableVal (c : Char) : Option Nat :=
  match tableIdx sae_pk_base32_table c 0 with
  | some i => some i
  | none => if c = '=' then some 0 else none

/-- The characters of a string that survive the decode table (everything
else is silently skipped by the decoder). -/
def alphaFilter (l : List Char) : List Char :=
  l.filter (fun c => (dtableVal c).isSome)

/-- The five octets of a 40-bit shift-register block, big-endian
(the emission step of sae_pk_base32_decode). -/
def bytes5 (block : Nat) : List Nat :=
  [block / 2 ^ 32 % 256, block / 2 ^ 24 % 256, block / 2 ^ 16 % 256,
   block / 2 ^ 8 % 256, block % 256]

/-- The main loop of sae_pk_base32_decode: skip characters outside the
decode table, accumulate five bits per character, emit five octets per
eight characters, and on padding truncate the output and stop. -/
def decLoop : List Char → Nat → Nat → Nat → List Nat → List Nat
  | [], _, _, _, out => out
  | c :: rest, block, count, pad, out =>
    match dtableVal c with
    | none => decLoop rest block count pad out
    | some tmp =>
      let pad2 := if c = '=' then pad + 1 else pad
      let block2 := block * 32 + tmp
      let count2 := count + 1
      if count2 = 8 then
        let out2 := out ++ bytes5 block2
        if 0 < pad2 then out2.take (out2.length - pad2 * 5 / 8)
        else decLoop rest 0 0 pad2 out2
      else decLoop rest block2 count2 pad2 out

/-- C: sae_pk_base32_decode.  Returns none exactly when the input holds no
character of the decode table; otherwise the input, extended by enough
synthetic padding characters to reach a multiple of eight valid
characters, is run through the main loop. -/
def sae_pk_base32_decode (src : List Char) : Option (List Nat) :=
  let count := (alphaFilter src).length
  if count = 0 then none
  else some (decLoop (src ++ List.replicate ((8 - count % 8) % 8) '=') 0 0 0 [])

/-- The base-32 character of a 5-bit value. -/
def tableChar (d : Nat) : Char := sae_pk_base32_table.getD d 'a'

/-- The eight base-32 characters of one 40-bit block, most significant
first. -/
def blockChars (B : Nat) : List Char :=
  (blockDigits B).map tableChar

/-- The encoder's output characters without the dash separators: eight
characters per (zero padded) group of five input octets. -/
def pureChars : List Nat → List Char
  | [] => []
  | [a] => blockChars (chunkBlock [a])
  | [a, b] => blockChars (chunkBlock [a, b])
  | [a, b, c] => blockChars (chunkBlock [a, b, c])
  | [a, b, c, d] => blockChars (chunkBlock [a, b, c, d])
  | a :: b :: c :: d :: e :: rest =>
    blockChars (chunkBlock [a, b, c, d, e]) ++ pureChars rest

/-! ## Definitions: SAE session model and confirm-element functions -/

/-- Modelled from the spec: the external collaborator contracts of §6
(hashing, AES-SIV, ECDSA operations, big-number and point serialization,
vendor element scanning).  Point, bignum and key handles are opaque
naturals; each operation is an arbitrary function supplied as a
parameter. -/
structure Crypto where
  hash : Nat → List Nat → List Nat
  point_to_bin : Nat → Option (List Nat)
  bignum_to_bin : Nat → Nat → Option (List Nat)
  sign : Nat → List Nat → Option (List Nat)
  verify : Nat → List Nat → List Nat → Int
  siv_encrypt : List Nat → Nat → List Nat → Option (List Nat)
  siv_decrypt : List Nat → Nat → List Nat → Option (List Nat)
  parse_pub : List Nat → Option Nat
  key_group : Nat → Nat
  get_vendor_ie : List Nat → Nat → Option (List Nat)

/-- C: struct sae_pk — the AP key container (modifier M, private key
handle, group, subject public key). -/
structure SaePkCont where
  m : List Nat
  key : Nat
  group : Nat
  pubkey : List Nat
deriving DecidableEq

/-- The fields of struct sae_temporary_data consumed by the confirm-stage
code (tmp->ec is modelled as the flag "the session uses an ECC group"). -/
structure SaeTmp where
  pw : List Nat
  lambda : Nat
  ssid : List Nat
  kek : List Nat
  kek_len : Nat
  ec : Bool
  prime_len : Nat
  own_commit_element : Nat
  peer_commit_element : Nat
  own_commit_scalar : Nat
  own_addr : List Nat
  peer_addr : List Nat
  ap_pk : Option SaePkCont
deriving DecidableEq

/-- The fields of struct sae_data consumed by the confirm-stage code. -/
structure SaeData where
  tmp : Option SaeTmp
  pk : Bool
  peer_commit_scalar : Nat
  group : Nat
deriving DecidableEq

/-- C: SAE_PK_M_LEN. -/
def SAE_PK_M_LEN : Nat := 16

/-- C: AES_BLOCK_SIZE. -/
def AES_BLOCK_SIZE : Nat := 16

/-- Modelled from the spec: the published OUI constant for the SAE-PK
vendor-specific element (WFA OUI 50-6F-9A with the SAE-PK subtype); the
numeric value is irrelevant to the claims, only its 4-octet big-endian
serialization matters. -/
def SAE_PK_IE_VENDOR_TYPE : Nat := 0x506f9a1f

/-- Modelled from the spec: the 802.11 Vendor Specific element
identifier. -/
def WLAN_EID_VENDOR_SPECIFIC : Nat := 221

/-- Modelled from the spec: the 802.11 Element ID Extension identifier. -/
def WLAN_EID_EXTENSION : Nat := 255

/-- Modelled from the spec: the FILS Public Key extension identifier. -/
def WLAN_EID_EXT_FILS_PUBLIC_KEY : Nat := 12

/-- Modelled from the spec: the FILS Key Confirmation extension
identifier. -/
def WLAN_EID_EXT_FILS_KEY_CONFIRM : Nat := 13

/-- C: sae_group_2_hash_len — hash length by SAE group (0 for any other
group). -/
def sae_group_2_hash_len (group : Nat) : Nat :=
  if group = 19 then 32
  else if group = 20 then 48
  else if group = 21 then 64
  else 0

/-- C: sae_hash — dispatch to SHA-256/384/512 by output length; any other
length fails. -/
def sae_hash (C : Crypto) (hash_len : Nat) (data : List Nat) : Option (List Nat) :=
  if hash_len = 32 ∨ hash_len = 48 ∨ hash_len = 64 then some (C.hash hash_len data)
  else none

/-- C: sae_pk_hash_sig_data — hash of the canonical transcript
eleAP ‖ eleSTA ‖ scaAP ‖ scaSTA ‖ M ‖ K_AP ‖ AP-BSSID ‖ STA-MAC; the ap
flag selects whether the session's own values take the AP or the STA
positions. -/
def sae_pk_hash_sig_data (C : Crypto) (sae : SaeData) (tmp : SaeTmp)
    (hash_len : Nat) (ap : Bool) (m pubkey : List Nat) : Option (List Nat) :=
  match C.point_to_bin (if ap then tmp.own_commit_element else tmp.peer_commit_element),
        C.point_to_bin (if ap then tmp.peer_commit_element else tmp.own_commit_element),
        C.bignum_to_bin (if ap then tmp.own_commit_scalar else sae.peer_commit_scalar)
          tmp.prime_len,
        C.bignum_to_bin (if ap then sae.peer_commit_scalar else tmp.own_commit_scalar)
          tmp.prime_len with
  | some e1, some e2, some s1, some s2 =>
    sae_hash C hash_len
      (e1 ++ e2 ++ s1 ++ s2 ++ m ++ pubkey ++
        (if ap then tmp.own_addr else tmp.peer_addr) ++
        (if ap then tmp.peer_addr else tmp.own_addr))
  | _, _, _, _ => none

/-- C: sae_pk_valid_fingerprint — recompute the fingerprint from the
password and compare it in constant time with the truncated
Hash(SSID ‖ M ‖ K_AP). -/
def sae_pk_valid_fingerprint (C : Crypto) (tmp : SaeTmp) (m k_ap : List Nat)
    (group : Nat) : Bool :=
  if tmp.pw.length < 1 then false
  else
    let hash_len := sae_group_2_hash_len group
    let hash_data := tmp.ssid ++ m ++ k_ap
    match sae_hash C hash_len hash_data with
    | none => false
    | some hash0 =>
      let sec := (tmp.pw.getD 0 0 >>> 6) + 2
      let fingerprint_bits := 8 * sec + 5 * tmp.lambda - 2
      if hash_len * 8 < fingerprint_bits then false
      else
        let fingerprint_bytes := (fingerprint_bits + 7) / 8
        let hash1 :=
          if fingerprint_bits % 8 ≠ 0 then
            hash0.set (fingerprint_bits / 8)
              ((hash0.getD (fingerprint_bits / 8) 0 >>> (8 - fingerprint_bits % 8)) <<<
                (8 - fingerprint_bits % 8))
          else hash0
        let fingerprint_exp := List.replicate sec 0 ++
          (List.range tmp.pw.length).map (fun i =>
            ((tmp.pw.getD i 0 <<< 2) ||| (tmp.pw.getD (i + 1) 0 >>> 6)) % 256)
        decide (hash1.take fingerprint_bytes = fingerprint_exp.take fingerprint_bytes)

/-- A wpabuf: a capacity and the octets written so far. -/
structure Wpabuf where
  size : Nat
  data : List Nat
deriving DecidableEq

/-- C: wpabuf_len. -/
def wpabuf_len (b : Wpabuf) : Nat := b.data.length

/-- C: wpabuf_tailroom. -/
def wpabuf_tailroom (b : Wpabuf) : Nat := b.size - b.data.length

/-- C: wpabuf_put and friends — append octets to a wpabuf; overflowing the
capacity aborts the process (modelled as none). -/
def wpabuf_put (b : Wpabuf) (bytes : List Nat) : Option Wpabuf :=
  if b.data.length + bytes.length ≤ b.size then
    some { b with data := b.data ++ bytes }
  else none

/-- C: wpabuf_put_be32 — big-endian 4-octet serialization. -/
def be32bytes (v : Nat) : List Nat :=
  [v / 2 ^ 24 % 256, v / 2 ^ 16 % 256, v / 2 ^ 8 % 256, v % 256]

/-- C: sae_write_confirm_pk — build the SAE-PK confirm element into the
scratch buffer elem and append it, wrapped as a vendor-specific element,
to the caller's confirm-frame buffer.  The result pairs the C return value
with the caller's buffer afterwards; none models a wpabuf overflow abort. -/
def sae_write_confirm_pk (C : Crypto) (sae : SaeData) (buf : Wpabuf) :
    Option (Int × Wpabuf) :=
  match sae.tmp with
  | none => some (-1, buf)
  | some tmp =>
    match tmp.ap_pk with
    | none => some (0, buf)
    | some pk =>
      if tmp.kek_len ≠ 32 ∧ tmp.kek_len ≠ 48 ∧ tmp.kek_len ≠ 64 then some (-1, buf)
      else if tmp.ec = false then some (-1, buf)
      else
        let hash_len := sae_group_2_hash_len pk.group
        match sae_pk_hash_sig_data C sae tmp hash_len true pk.m pk.pubkey with
        | none => some (-1, buf)
        | some hash0 =>
          match C.sign pk.key hash0 with
          | none => some (-1, buf)
          | some sig =>
            let encr_mod_len := pk.m.length + AES_BLOCK_SIZE
            let elem0 : Wpabuf := { size := 1500 + sig.length, data := [] }
            match wpabuf_put elem0 [encr_mod_len % 256] with
            | none => none
            | some elem1 =>
              if elem1.size < elem1.data.length + encr_mod_len then none
              else
                match C.siv_encrypt tmp.kek tmp.kek_len pk.m with
                | none => some (-1, buf)
                | some em =>
                  let encr_mod := em.take encr_mod_len ++
                    List.replicate (encr_mod_len - em.length) 0
                  match wpabuf_put elem1 (encr_mod ++
                      [WLAN_EID_EXTENSION, (2 + pk.pubkey.length) % 256,
                       WLAN_EID_EXT_FILS_PUBLIC_KEY, 3] ++ pk.pubkey ++
                      [WLAN_EID_EXTENSION, (1 + sig.length) % 256,
                       WLAN_EID_EXT_FILS_KEY_CONFIRM] ++ sig) with
                  | none => none
                  | some elem =>
                    if wpabuf_tailroom elem < 6 + wpabuf_len buf then some (-1, buf)
                    else
                      match wpabuf_put buf
                          ([WLAN_EID_VENDOR_SPECIFIC, (4 + wpabuf_len elem) % 256] ++
                            be32bytes SAE_PK_IE_VENDOR_TYPE ++ elem.data) with
                      | none => none
                      | some buf2 => some (0, buf2)

/-- C: sae_check_confirm_pk — locate and validate the SAE-PK element in
the received confirm-frame information elements.  Returns the C return
value (0 or -1). -/
def sae_check_confirm_pk (C : Crypto) (sae : SaeData) (ies : List Nat) : Int :=
  match sae.tmp with
  | none => -1
  | some tmp =>
    if sae.pk = false ∨ tmp.ap_pk.isSome then 0
    else if tmp.kek_len ≠ 32 ∧ tmp.kek_len ≠ 48 ∧ tmp.kek_len ≠ 64 then -1
    else if tmp.ec = false then -1
    else
      match C.get_vendor_ie ies SAE_PK_IE_VENDOR_TYPE with
      | none => -1
      | some sae_pk_elem =>
        let elen := sae_pk_elem.getD 1 0
        let body := (sae_pk_elem.drop 2).take elen
        if elen < 4 + 1 + SAE_PK_M_LEN + AES_BLOCK_SIZE then -1
        else
          let afterVendor := body.drop 4
          if afterVendor.getD 0 0 ≠ SAE_PK_M_LEN + AES_BLOCK_SIZE then -1
          else
            let encr_mod := (afterVendor.drop 1).take (SAE_PK_M_LEN + AES_BLOCK_SIZE)
            let rest1 := afterVendor.drop (1 + SAE_PK_M_LEN + AES_BLOCK_SIZE)
            if rest1.length < 4 ∨ rest1.getD 0 0 ≠ WLAN_EID_EXTENSION ∨
                rest1.getD 1 0 < 2 ∨ rest1.length - 2 < rest1.getD 1 0 ∨
                rest1.getD 2 0 ≠ WLAN_EID_EXT_FILS_PUBLIC_KEY then -1
            else if rest1.getD 3 0 ≠ 3 then -1
            else
              let k_ap_len := rest1.getD 1 0 - 2
              let k_ap := (rest1.drop 4).take k_ap_len
              let rest2 := rest1.drop (4 + k_ap_len)
              if rest2.length < 4 ∨ rest2.getD 0 0 ≠ WLAN_EID_EXTENSION ∨
                  rest2.getD 1 0 < 1 ∨ rest2.length - 2 < rest2.getD 1 0 ∨
                  rest2.getD 2 0 ≠ WLAN_EID_EXT_FILS_KEY_CONFIRM then -1
              else
                let key_auth_len := rest2.getD 1 0 - 1
                let key_auth := (rest2.drop 3).take key_auth_len
                match C.siv_decrypt tmp.kek tmp.kek_len encr_mod with
                | none => -1
                | some m0 =>
                  let m := m0.take SAE_PK_M_LEN ++
                    List.replicate (SAE_PK_M_LEN - m0.length) 0
                  match C.parse_pub k_ap with
                  | none => -1
                  | some key =>
                    let group := C.key_group key
                    if sae_pk_valid_fingerprint C tmp m k_ap group = false then -1
                    else if group ≠ sae.group then -1
                    else
                      let hash_len := sae_group_2_hash_len group
                      match sae_pk_hash_sig_data C sae tmp hash_len false m k_ap with
                      | none => -1
                      | some hash0 =>
                        if C.verify key hash0 key_auth ≠ 1 then -1
                        else 0

/-! ## Definitions: concrete fixtures and the claim-side fingerprint formula -/

/-- The AP side of the C8 witness session. -/
def tmpA0 : SaeTmp :=
  { pw := [], lambda := 0, ssid := [], kek := [], kek_len := 32, ec := true,
    prime_len := 32, own_commit_element := 10, peer_commit_element := 11,
    own_commit_scalar := 12, own_addr := [2, 0, 0, 0, 0, 1],
    peer_addr := [2, 0, 0, 0, 0, 2], ap_pk := none }

/-- The STA side of the C8 witness session (roles mirrored). -/
def tmpS0 : SaeTmp :=
  { tmpA0 with
    own_commit_element := 11
    peer_commit_element := 10
    own_commit_scalar := 13
    own_addr := [2, 0, 0, 0, 0, 2]
    peer_addr := [2, 0, 0, 0, 0, 1] }

/-- The AP-side sae_data of the C8 witness session. -/
def saeA0 : SaeData :=
  { tmp := some tmpA0, pk := true, peer_commit_scalar := 13, group := 19 }

/-- The STA-side sae_data of the C8 witness session. -/
def saeS0 : SaeData :=
  { tmp := some tmpS0, pk := true, peer_commit_scalar := 12, group := 19 }

/-- A concrete collaborator instance used by the witnesses. -/
def cryptoZero : Crypto :=
  { hash := fun n _ => List.replicate n 0,
    point_to_bin := fun _ => some (List.replicate 4 1),
    bignum_to_bin := fun _ w => some (List.replicate w 2),
    sign := fun _ _ => some [7],
    verify := fun _ _ _ => 1,
    siv_encrypt := fun _ _ m => some (List.replicate (m.length + 16) 3),
    siv_decrypt := fun _ _ _ => some (List.replicate 16 4),
    parse_pub := fun _ => some 5,
    key_group := fun _ => 19,
    get_vendor_ie := fun _ _ => none }

/-- The AP key container of the concrete builder runs. -/
def pk1 : SaePkCont :=
  { m := List.replicate 16 0, key := 0, group := 19, pubkey := [9] }

/-- A session with pk1 bound, a valid kek and an ECC group. -/
def tmp1 : SaeTmp :=
  { pw := [0], lambda := 1, ssid := [], kek := List.replicate 32 9,
    kek_len := 32, ec := true, prime_len := 32, own_commit_element := 0,
    peer_commit_element := 1, own_commit_scalar := 2,
    own_addr := [2, 0, 0, 0, 0, 1], peer_addr := [2, 0, 0, 0, 0, 2],
    ap_pk := some pk1 }

/-- The sae_data wrapping tmp1. -/
def sae1 : SaeData :=
  { tmp := some tmp1, pk := true, peer_commit_scalar := 3, group := 19 }

/-- A caller buffer with no tailroom at all. -/
def fullBuf : Wpabuf := { size := 3, data := [0, 0, 0] }

/-- The same session as tmp1 but with kek_len = 24. -/
def tmp24 : SaeTmp := { tmp1 with kek_len := 24 }

/-- The sae_data wrapping tmp24. -/
def sae24 : SaeData := { sae1 with tmp := some tmp24 }

/-- An empty caller buffer with plenty of room. -/
def roomyBuf : Wpabuf := { size := 2000, data := [] }

/-- The session tmp1 with no container bound. -/
def tmpNoPk : SaeTmp := { tmp1 with ap_pk := none }

/-- The sae_data wrapping tmpNoPk. -/
def saeNoPk : SaeData := { sae1 with tmp := some tmpNoPk }

/-- The session of the C2 counterexample: everything valid except that
SAE-PK is not enabled. -/
def tmpCheck : SaeTmp := { tmp1 with ap_pk := none }

/-- The sae_data of the C2 counterexample: sae->pk is false. -/
def saeDisabled : SaeData :=
  { tmp := some tmpCheck, pk := false, peer_commit_scalar := 3, group := 19 }

/-- The claim's security parameter: Sec = (pw[0] >> 6) + 2. -/
def fpSec (pw : List Nat) : Nat := (pw.getD 0 0 >>> 6) + 2

/-- The claim's fingerprint width: bits = 8 Sec + 5 lambda - 2. -/
def fpBits (pw : List Nat) (lambda : Nat) : Nat := 8 * fpSec pw + 5 * lambda - 2

/-- The claim's compared octet count: ceil(bits / 8). -/
def fpBytes (pw : List Nat) (lambda : Nat) : Nat := (fpBits pw lambda + 7) / 8

/-- The claim's left-hand octets: octet j of Hash(ssid ‖ m ‖ k_ap), with the
low 8 - bits mod 8 bits of octet bits / 8 cleared when bits mod 8 is not
zero. -/
def fpHashAdjusted (C : Crypto) (tmp : SaeTmp) (m k_ap : List Nat)
    (group : Nat) (j : Nat) : Nat :=
  let h := C.hash (sae_group_2_hash_len group) (tmp.ssid ++ m ++ k_ap)
  let bits := fpBits tmp.pw tmp.lambda
  if bits % 8 ≠ 0 ∧ j = bits / 8 then
    (h.getD j 0 >>> (8 - bits % 8)) <<< (8 - bits % 8)
  else h.getD j 0

/-- The claim's right-hand octets: Sec zero octets followed by pw shifted
left by two bits, expected[Sec + i] = (pw[i] << 2) | (pw[i+1] >> 6) with
pw[|pw|] = 0. -/
def fpExpected (pw : List Nat) (j : Nat) : Nat :=
  if j < fpSec pw then 0
  else ((pw.getD (j - fpSec pw) 0 <<< 2) ||| (pw.getD (j - fpSec pw + 1) 0 >>> 6)) % 256

/-! ## Theorems: password validity (C5, C6) -/

theorem pwLoop_iff (l : List Char) (pos : Nat) :
    pwLoop l pos = true ↔ ∀ j < l.length, pwCharOk (pos + j) (l.getD j ' ') := by
  induction l generalizing pos with
  | nil => simp [pwLoop]
  | cons c rest ih =>
    have hsucc : ∀ j : Nat, pos + (j + 1) = (pos + 1) + j := by omega
    by_cases hc : 0 < pos ∧ pos % 5 = 4
    · rw [pwLoop, if_pos hc]
      constructor
      · intro h
        have hdash : c = '-' := by
          by_contra hne
          rw [if_neg hne] at h
          exact Bool.false_ne_true h
        rw [if_pos hdash] at h
        intro j hj
        match j, hj with
        | 0, _ =>
          simp only [Nat.add_zero, pwCharOk, List.getD_cons_zero]
          rw [if_pos hc]
          exact hdash
        | j + 1, hj =>
          rw [hsucc j, List.getD_cons_succ]
          exact (ih (pos + 1)).mp h j (by simpa using Nat.lt_of_succ_lt_succ hj)
      · intro h
        have h0 := h 0 (by simp)
        simp only [Nat.add_zero, pwCharOk, List.getD_cons_zero] at h0
        rw [if_pos hc] at h0
        rw [if_pos h0]
        refine (ih (pos + 1)).mpr ?_
        intro j hj
        have := h (j + 1) (by simpa using Nat.succ_lt_succ hj)
        rw [hsucc j, List.getD_cons_succ] at this
        exact this
    · rw [pwLoop, if_neg hc]
      constructor
      · intro h
        have halpha : sae_pk_base32_table.contains c = true := by
          by_contra hne
          rw [Bool.not_eq_true] at hne
          rw [if_neg (by rw [hne]; simp)] at h
          exact Bool.false_ne_true h
        rw [if_pos halpha] at h
        intro j hj
        match j, hj with
        | 0, _ =>
          simp only [Nat.add_zero, pwCharOk, List.getD_cons_zero]
          rw [if_neg hc]
          simpa using halpha
        | j + 1, hj =>
          rw [hsucc j, List.getD_cons_succ]
          exact (ih (pos + 1)).mp h j (by simpa using Nat.lt_of_succ_lt_succ hj)
      · intro h
        have h0 := h 0 (by simp)
        simp only [Nat.add_zero, pwCharOk, List.getD_cons_zero] at h0
        rw [if_neg hc] at h0
        rw [if_pos (by simpa using h0)]
        refine (ih (pos + 1)).mpr ?_
        intro j hj
        have := h (j + 1) (by simpa using Nat.succ_lt_succ hj)
        rw [hsucc j, List.getD_cons_succ] at this
        exact this

/-- C5: sae_pk_valid_password returns true iff the password has length at
least 9, every character at an index i with i > 0 and i % 5 = 4 is a dash,
every character at the other indices is one of the 32 lowercase base-32
alphabet characters, and the final character is not a dash. -/
theorem valid_password_iff (p : List Char) :
    sae_pk_valid_password p = true ↔
      9 ≤ p.length ∧
      (∀ i < p.length,
        ((0 < i ∧ i % 5 = 4) → p.getD i ' ' = '-') ∧
        (¬ (0 < i ∧ i % 5 = 4) → p.getD i ' ' ∈ sae_pk_base32_table)) ∧
      p.getD (p.length - 1) ' ' ≠ '-' := by
  unfold sae_pk_valid_password
  by_cases hlen : p.length < 9
  · rw [if_pos hlen]
    constructor
    · intro h; exact absurd h (by simp)
    · intro h; exact absurd h.1 (by omega)
  · rw [if_neg hlen]
    have hne : p.length ≠ 0 := by omega
    by_cases hloop : pwLoop p 0 = true
    · rw [if_pos hloop, if_neg hne]
      constructor
      · intro h
        refine ⟨by omega, ?_, by simpa using h⟩
        intro i hi
        have := (pwLoop_iff p 0).mp hloop i hi
        simp only [pwCharOk, Nat.zero_add] at this
        constructor
        · intro hc; rwa [if_pos hc] at this
        · intro hc; rwa [if_neg hc] at this
      · intro h
        simpa using h.2.2
    · rw [if_neg hloop]
      constructor
      · intro h; exact absurd h (by simp)
      · intro h
        exfalso
        apply hloop
        refine (pwLoop_iff p 0).mpr ?_
        intro j hj
        have := h.2.1 j hj
        simp only [pwCharOk, Nat.zero_add]
        split
        · rename_i hc; exact this.1 hc
        · rename_i hc; exact this.2 hc

/-- C6 counterexample: the spec's scenario 1 asserts
valid_password("abcde-fghij-klmno") = true, but the code requires a dash at
index 4 (which holds the character e), so the result is false. -/
theorem scenario1_counterexample :
    ¬ (sae_pk_valid_password "abcde-fghij-klmno".toList = true ∧
       sae_pk_valid_password "abcde-fghij-".toList = false ∧
       sae_pk_valid_password "abcdefghi".toList = true ∧
       sae_pk_valid_password "abcd".toList = false) := by
  decide

/-- C6 amended: the four literal password-validity evaluations of the spec's
scenario 1 as the code actually computes them — dashes are required at
indices 4, 9, 14, …, so all four example strings are invalid. -/
theorem scenario1_values :
    sae_pk_valid_password "abcde-fghij-klmno".toList = false ∧
    sae_pk_valid_password "abcde-fghij-".toList = false ∧
    sae_pk_valid_password "abcdefghi".toList = false ∧
    sae_pk_valid_password "abcd".toList = false := by
  decide

/-! ## Theorems: base-32 round trip (C3) and decode failure (C7) -/

theorem dtableVal_tableChar {d : Nat} (h : d < 32) :
    dtableVal (tableChar d) = some d := by
  have hfin : ∀ d : Fin 32, dtableVal (tableChar d.val) = some d.val := by decide
  exact hfin ⟨d, h⟩

theorem tableChar_ne_pad {d : Nat} (h : d < 32) : ¬ (tableChar d = '=') := by
  have hfin : ∀ d : Fin 32, ¬ (tableChar d.val = '=') := by decide
  exact hfin ⟨d, h⟩

theorem dtableVal_dash : dtableVal '-' = none := by decide

theorem alphaFilter_append (l1 l2 : List Char) :
    alphaFilter (l1 ++ l2) = alphaFilter l1 ++ alphaFilter l2 := by
  simp [alphaFilter]

theorem add_char_spec (out : List Char) (idx bits : Nat) (h5 : 5 ≤ bits)
    (hidx : idx < 32) :
    alphaFilter (add_char out idx bits).1 = alphaFilter out ++ [tableChar idx] ∧
    (add_char out idx bits).2 = bits - 5 := by
  have hsome : (dtableVal (tableChar idx)).isSome = true := by
    rw [dtableVal_tableChar hidx]; rfl
  have hchar : alphaFilter [tableChar idx] = [tableChar idx] := by
    simp only [alphaFilter, List.filter, hsome]
  have hdash : alphaFilter ['-'] = [] := by
    simp only [alphaFilter, List.filter, dtableVal_dash, Option.isSome_none]
  unfold add_char
  rw [if_neg (by omega : ¬ bits = 0)]
  simp only
  constructor
  · rw [show sae_pk_base32_table.getD idx 'a' = tableChar idx from rfl]
    rw [alphaFilter_append, hchar]
    split
    · rw [alphaFilter_append, hdash, List.append_nil]
    · rfl
  · split <;> omega

theorem addChars_spec : ∀ (ds : List Nat) (st : List Char × Nat),
    (∀ d ∈ ds, d < 32) → 5 * ds.length ≤ st.2 →
    alphaFilter (addChars ds st).1 = alphaFilter st.1 ++ ds.map tableChar ∧
    (addChars ds st).2 = st.2 - 5 * ds.length := by
  intro ds
  induction ds with
  | nil => intro st _ _; simp [addChars]
  | cons d ds ih =>
    intro st hd hlen
    simp only [List.length_cons] at hlen
    rw [show addChars (d :: ds) st = addChars ds (add_char st.1 d st.2) from rfl]
    obtain ⟨f, b⟩ := add_char_spec st.1 d st.2 (by omega) (hd d (by simp))
    obtain ⟨F, B2⟩ := ih (add_char st.1 d st.2) (fun x hx => hd x (by simp [hx]))
      (by rw [b]; omega)
    constructor
    · rw [F, f, List.map_cons, List.append_assoc]
      rfl
    · rw [B2, b]
      simp only [List.length_cons]
      omega

theorem emit8_spec (B : Nat) (out : List Char) (left : Nat) (h : 40 ≤ left) :
    alphaFilter (emit8 B out left).1 = alphaFilter out ++ blockChars B ∧
    (emit8 B out left).2 = left - 40 := by
  have hd : ∀ d ∈ blockDigits B, d < 32 := by
    intro d hd
    simp only [blockDigits, List.mem_cons, List.not_mem_nil, or_false] at hd
    rcases hd with rfl | rfl | rfl | rfl | rfl | rfl | rfl | rfl <;>
      exact Nat.mod_lt _ (by norm_num)
  obtain ⟨F, B2⟩ := addChars_spec (blockDigits B) (out, left) hd
    (by simp [blockDigits]; omega)
  unfold emit8
  refine ⟨?_, ?_⟩
  · rw [F]; rfl
  · rw [B2]; simp [blockDigits]

theorem exists_five {α : Type} (l : List α) (h : 5 ≤ l.length) :
    ∃ a b c d e rest, l = a :: b :: c :: d :: e :: rest := by
  match l, h with
  | a :: b :: c :: d :: e :: rest, _ => exact ⟨a, b, c, d, e, rest, rfl⟩
  | [], h => simp at h
  | [a], h => simp at h
  | [a, b], h => simp at h
  | [a, b, c], h => simp at h
  | [a, b, c, d], h => simp at h

theorem encChunks_filter : ∀ (n : Nat) (l : List Nat) (out : List Char) (left : Nat),
    l.length = 5 * n → left = 8 * l.length →
    alphaFilter (encChunks l out left) = alphaFilter out ++ pureChars l := by
  intro n
  induction n with
  | zero =>
    intro l out left hl _
    have : l = [] := List.length_eq_zero.mp (by omega)
    subst this
    simp [encChunks, pureChars]
  | succ m ih =>
    intro l out left hl hleft
    obtain ⟨a, b, c, d, e, rest, rfl⟩ := exists_five l (by omega)
    have hr : rest.length = 5 * m := by
      simp only [List.length_cons] at hl
      omega
    have h40 : 40 ≤ left := by
      simp only [List.length_cons] at hleft
      omega
    obtain ⟨hf, hb⟩ := emit8_spec (chunkBlock [a, b, c, d, e]) out left h40
    rw [show encChunks (a :: b :: c :: d :: e :: rest) out left =
      encChunks rest (emit8 (chunkBlock [a, b, c, d, e]) out left).1
        (emit8 (chunkBlock [a, b, c, d, e]) out left).2 from rfl]
    rw [ih rest (emit8 (chunkBlock [a, b, c, d, e]) out left).1
      (emit8 (chunkBlock [a, b, c, d, e]) out left).2 hr
      (by rw [hb]; simp only [List.length_cons] at hleft ⊢; omega)]
    rw [hf]
    rw [show pureChars (a :: b :: c :: d :: e :: rest) =
      blockChars (chunkBlock [a, b, c, d, e]) ++ pureChars rest from rfl]
    rw [List.append_assoc]

theorem pureChars_length : ∀ (n : Nat) (l : List Nat), l.length = 5 * n →
    (pureChars l).length = 8 * n := by
  intro n
  induction n with
  | zero =>
    intro l hl
    have : l = [] := List.length_eq_zero.mp (by omega)
    subst this
    rfl
  | succ m ih =>
    intro l hl
    obtain ⟨a, b, c, d, e, rest, rfl⟩ := exists_five l (by omega)
    have hr : rest.length = 5 * m := by
      simp only [List.length_cons] at hl
      omega
    rw [show pureChars (a :: b :: c :: d :: e :: rest) =
      blockChars (chunkBlock [a, b, c, d, e]) ++ pureChars rest from rfl]
    rw [List.length_append, ih rest hr]
    rw [show (blockChars (chunkBlock [a, b, c, d, e])).length = 8 from rfl]
    omega

theorem decLoop_filter : ∀ (s : List Char) (b c p : Nat) (o : List Nat),
    decLoop s b c p o = decLoop (alphaFilter s) b c p o := by
  intro s
  induction s with
  | nil => intro b c p o; rfl
  | cons x rest ih =>
    intro b c p o
    cases hx : dtableVal x with
    | none =>
      have hfil : alphaFilter (x :: rest) = alphaFilter rest := by
        simp [alphaFilter, hx]
      rw [hfil, decLoop, hx]
      exact ih _ _ _ _
    | some tmp =>
      have hfil : alphaFilter (x :: rest) = x :: alphaFilter rest := by
        simp [alphaFilter, hx]
      rw [hfil]
      simp only [decLoop, hx]
      repeat' split
      all_goals first | rfl | exact ih _ _ _ _

theorem decLoop_step (d : Nat) (hd : d < 32) (s : List Char) (b c p : Nat)
    (o : List Nat) (hc : ¬ (c + 1 = 8)) :
    decLoop (tableChar d :: s) b c p o = decLoop s (b * 32 + d) (c + 1) p o := by
  simp [decLoop, dtableVal_tableChar hd, tableChar_ne_pad hd, hc]

theorem decLoop_step8 (d : Nat) (hd : d < 32) (s : List Char) (b : Nat)
    (o : List Nat) :
    decLoop (tableChar d :: s) b 7 0 o = decLoop s 0 0 0 (o ++ bytes5 (b * 32 + d)) := by
  simp [decLoop, dtableVal_tableChar hd, tableChar_ne_pad hd]

theorem decLoop_blockChars (B : Nat) (hB : B < 2 ^ 40) (rest : List Char)
    (out : List Nat) :
    decLoop (blockChars B ++ rest) 0 0 0 out = decLoop rest 0 0 0 (out ++ bytes5 B) := by
  have h32 : ∀ k : Nat, (B >>> k) % 32 < 32 := fun k => Nat.mod_lt _ (by norm_num)
  have h32b : B % 32 < 32 := Nat.mod_lt _ (by norm_num)
  simp only [blockChars, blockDigits, List.map_cons, List.map_nil,
    List.cons_append, List.nil_append]
  rw [decLoop_step _ (h32 35) _ _ _ _ _ (by decide)]
  rw [decLoop_step _ (h32 30) _ _ _ _ _ (by decide)]
  rw [decLoop_step _ (h32 25) _ _ _ _ _ (by decide)]
  rw [decLoop_step _ (h32 20) _ _ _ _ _ (by decide)]
  rw [decLoop_step _ (h32 15) _ _ _ _ _ (by decide)]
  rw [decLoop_step _ (h32 10) _ _ _ _ _ (by decide)]
  rw [decLoop_step _ (h32 5) _ _ _ _ _ (by decide)]
  rw [decLoop_step8 _ h32b]
  have hfold :
      ((((((0 * 32 + (B >>> 35) % 32) * 32 + (B >>> 30) % 32) * 32 +
        (B >>> 25) % 32) * 32 + (B >>> 20) % 32) * 32 + (B >>> 15) % 32) * 32 +
        (B >>> 10) % 32) * 32 + (B >>> 5) % 32 = B >>> 5 := by
    simp only [Nat.shiftRight_eq_div_pow]
    omega
  rw [hfold]
  have hfold2 : B >>> 5 * 32 + B % 32 = B := by
    simp only [Nat.shiftRight_eq_div_pow]
    omega
  rw [hfold2]

theorem bytes5_chunkBlock (a b c d e : Nat) (ha : a < 256) (hb : b < 256)
    (hc : c < 256) (hd : d < 256) (he : e < 256) :
    bytes5 (chunkBlock [a, b, c, d, e]) = [a, b, c, d, e] := by
  simp only [bytes5, chunkBlock, List.getD, List.get?_cons_zero,
    List.get?_cons_succ, Option.getD_some, List.cons.injEq, and_true]
  omega

theorem chunkBlock_lt (a b c d e : Nat) (ha : a < 256) (hb : b < 256)
    (hc : c < 256) (hd : d < 256) (he : e < 256) :
    chunkBlock [a, b, c, d, e] < 2 ^ 40 := by
  simp only [chunkBlock, List.getD, List.get?_cons_zero,
    List.get?_cons_succ, Option.getD_some]
  omega

theorem decLoop_pureChars : ∀ (n : Nat) (l : List Nat) (out : List Nat),
    l.length = 5 * n → (∀ x ∈ l, x < 256) →
    decLoop (pureChars l) 0 0 0 out = out ++ l := by
  intro n
  induction n with
  | zero =>
    intro l out hl _
    have : l = [] := List.length_eq_zero.mp (by omega)
    subst this
    simp [pureChars, decLoop]
  | succ m ih =>
    intro l out hl hbytes
    obtain ⟨a, b, c, d, e, rest, rfl⟩ := exists_five l (by omega)
    have hr : rest.length = 5 * m := by
      simp only [List.length_cons] at hl
      omega
    rw [show pureChars (a :: b :: c :: d :: e :: rest) =
      blockChars (chunkBlock [a, b, c, d, e]) ++ pureChars rest from rfl]
    have ha : a < 256 := hbytes a (by simp)
    have hbb : b < 256 := hbytes b (by simp)
    have hcc : c < 256 := hbytes c (by simp)
    have hdd : d < 256 := hbytes d (by simp)
    have hee : e < 256 := hbytes e (by simp)
    rw [decLoop_blockChars _ (chunkBlock_lt a b c d e ha hbb hcc hdd hee)]
    rw [bytes5_chunkBlock a b c d e ha hbb hcc hdd hee]
    rw [ih rest _ hr (fun x hx => hbytes x (by simp [hx]))]
    simp

/-- C3: for every octet string b whose length is a positive multiple of 5
(and representable in the size type), decoding the encoding of b
round-trips exactly: sae_pk_base32_decode (sae_pk_base32_encode b (8 |b|))
returns b. -/
theorem base32_roundtrip (b : List Nat) (hne : b ≠ []) (hmod : b.length % 5 = 0)
    (hbytes : ∀ x ∈ b, x < 256) (hsize : b.length < (2 ^ 64 - 1) / 8) :
    (sae_pk_base32_encode b (8 * b.length)).bind sae_pk_base32_decode = some b := by
  have hpos : 0 < b.length := List.length_pos.mpr hne
  have hlen : (8 * b.length + 7) / 8 = b.length := by omega
  have hn : b.length = 5 * (b.length / 5) := by omega
  have hnpos : 1 ≤ b.length / 5 := by omega
  unfold sae_pk_base32_encode
  simp only [hlen]
  rw [if_neg (by push_neg; constructor <;> omega)]
  rw [List.take_length, Nat.sub_self, List.replicate_zero, List.append_nil]
  show sae_pk_base32_decode (encChunks b [] (8 * b.length)) = some b
  unfold sae_pk_base32_decode
  have hfil := encChunks_filter (b.length / 5) b [] (8 * b.length) hn rfl
  have hfil0 : alphaFilter [] = [] := rfl
  rw [hfil0, List.nil_append] at hfil
  have hplen := pureChars_length (b.length / 5) b hn
  simp only [hfil, hplen]
  rw [if_neg (by omega)]
  have hmod8 : (8 - 8 * (b.length / 5) % 8) % 8 = 0 := by omega
  rw [hmod8, List.replicate_zero, List.append_nil]
  rw [decLoop_filter, hfil]
  rw [decLoop_pureChars (b.length / 5) b [] hn hbytes]
  rfl

theorem tableIdx_of_not_mem : ∀ (l : List Char) (c : Char) (i : Nat),
    c ∉ l → tableIdx l c i = none := by
  intro l
  induction l with
  | nil => intro c i _; rfl
  | cons x rest ih =>
    intro c i hmem
    rw [tableIdx, if_neg (fun hx => hmem (by simp [hx.symm]))]
    exact ih c (i + 1) (fun hx => hmem (by simp [hx]))

theorem dtableVal_not_mem {c : Char} (h : c ∉ sae_pk_base32_table) :
    dtableVal c = if c = '=' then some 0 else none := by
  unfold dtableVal
  rw [tableIdx_of_not_mem _ _ _ h]

theorem decLoop_pad_only : ∀ (s : List Char) (k : Nat),
    (∀ c ∈ s, c ∉ sae_pk_base32_table) → k < 8 →
    decLoop s 0 k k [] = [] := by
  intro s
  induction s with
  | nil => intro k _ _; rfl
  | cons x rest ih =>
    intro k hmem hk
    have hx : dtableVal x = if x = '=' then some 0 else none :=
      dtableVal_not_mem (hmem x (by simp))
    by_cases hpad : x = '='
    · rw [if_pos hpad] at hx
      simp only [decLoop, hx]
      rw [if_pos hpad]
      by_cases h8 : k + 1 = 8
      · rw [if_pos h8, if_pos (by omega : 0 < k + 1)]
        simp [h8, bytes5]
      · rw [if_neg h8]
        rw [show (0 : Nat) * 32 + 0 = 0 from by norm_num]
        exact ih (k + 1) (fun c hc => hmem c (by simp [hc])) (by omega)
    · rw [if_neg hpad] at hx
      simp only [decLoop, hx]
      exact ih k (fun c hc => hmem c (by simp [hc])) hk

/-- C7: for every input string containing no character of the 32-character
base-32 alphabet, sae_pk_base32_decode produces no decoded octets: it
returns none when the string has no padding characters either, and an empty
octet string otherwise (the padding truncation removes everything that was
emitted). -/
theorem decode_no_alphabet (s : List Char)
    (h : ∀ c ∈ s, c ∉ sae_pk_base32_table) :
    sae_pk_base32_decode s = none ∨ sae_pk_base32_decode s = some [] := by
  simp only [sae_pk_base32_decode]
  by_cases hc : (alphaFilter s).length = 0
  · left
    rw [if_pos hc]
  · right
    rw [if_neg hc]
    have hall : ∀ c ∈ s ++ List.replicate ((8 - (alphaFilter s).length % 8) % 8) '=',
        c ∉ sae_pk_base32_table := by
      intro c hcmem
      rcases List.mem_append.mp hcmem with hm | hm
      · exact h c hm
      · have hce : c = '=' := List.eq_of_mem_replicate hm
        subst hce
        decide
    rw [decLoop_pad_only _ 0 hall (by omega)]

/-- C7 witness. -/
theorem decode_no_alphabet_witness :
    (∀ c ∈ "=-=0".toList, c ∉ sae_pk_base32_table) ∧
    (sae_pk_base32_decode "=-=0".toList = none ∨
     sae_pk_base32_decode "=-=0".toList = some []) :=
  ⟨by decide, decode_no_alphabet "=-=0".toList (by decide)⟩

/-- C3 witness. -/
theorem base32_roundtrip_witness :
    (([1, 2, 3, 4, 5] : List Nat) ≠ [] ∧ ([1, 2, 3, 4, 5] : List Nat).length % 5 = 0) ∧
    (sae_pk_base32_encode [1, 2, 3, 4, 5] (8 * ([1, 2, 3, 4, 5] : List Nat).length)).bind
      sae_pk_base32_decode = some [1, 2, 3, 4, 5] :=
  ⟨⟨by decide, by decide⟩,
    base32_roundtrip [1, 2, 3, 4, 5] (by decide) (by decide) (by decide) (by decide)⟩

/-! ## Theorems: transcript symmetry (C8) -/

/-- C8: whenever the AP-side and STA-side sessions agree on the exchanged
values (each side's own commit element, scalar and address equal the other
side's peer counterparts, same prime length, modifier and public key), the
transcript hash computed with ap = true on the AP side equals the
transcript hash computed with ap = false on the STA side. -/
theorem hash_sig_data_symmetry (C : Crypto) (saeA saeS : SaeData)
    (tmpA tmpS : SaeTmp) (hash_len : Nat) (m pubkey : List Nat)
    (h1 : tmpA.own_commit_element = tmpS.peer_commit_element)
    (h2 : tmpA.peer_commit_element = tmpS.own_commit_element)
    (h3 : tmpA.own_commit_scalar = saeS.peer_commit_scalar)
    (h4 : saeA.peer_commit_scalar = tmpS.own_commit_scalar)
    (h5 : tmpA.own_addr = tmpS.peer_addr)
    (h6 : tmpA.peer_addr = tmpS.own_addr)
    (h7 : tmpA.prime_len = tmpS.prime_len) :
    sae_pk_hash_sig_data C saeA tmpA hash_len true m pubkey =
    sae_pk_hash_sig_data C saeS tmpS hash_len false m pubkey := by
  simp only [sae_pk_hash_sig_data, if_true, if_false, h1, h2, h3, h4, h5, h6, h7,
    Bool.false_eq_true, ite_false, ite_true]

/-- C8 witness. -/
theorem hash_sig_data_symmetry_witness :
    (tmpA0.own_commit_element = tmpS0.peer_commit_element ∧
     tmpA0.own_commit_scalar = saeS0.peer_commit_scalar) ∧
    sae_pk_hash_sig_data cryptoZero saeA0 tmpA0 32 true [5] [6] =
      sae_pk_hash_sig_data cryptoZero saeS0 tmpS0 32 false [5] [6] :=
  ⟨⟨rfl, rfl⟩,
    hash_sig_data_symmetry cryptoZero saeA0 saeS0 tmpA0 tmpS0 32 [5] [6]
      rfl rfl rfl rfl rfl rfl rfl⟩

/-! ## Theorems: confirm builder (C9, C10, C1) -/

/-- C9: with an AP key container bound but a kek length outside
{32, 48, 64}, sae_write_confirm_pk returns -1 and leaves the caller's
output buffer unchanged. -/
theorem write_confirm_bad_kek (C : Crypto) (sae : SaeData) (buf : Wpabuf)
    (tmp : SaeTmp) (pk : SaePkCont) (htmp : sae.tmp = some tmp)
    (hpk : tmp.ap_pk = some pk)
    (hkek : tmp.kek_len ≠ 32 ∧ tmp.kek_len ≠ 48 ∧ tmp.kek_len ≠ 64) :
    sae_write_confirm_pk C sae buf = some (-1, buf) := by
  simp only [sae_write_confirm_pk, htmp, hpk]
  rw [if_pos hkek]

/-- C10: with no AP key container bound, sae_write_confirm_pk returns 0 and
leaves the caller's buffer unchanged, for every possible behaviour of the
crypto collaborators (so no cryptographic operation can influence the
result). -/
theorem write_confirm_no_container (C : Crypto) (sae : SaeData) (buf : Wpabuf)
    (tmp : SaeTmp) (htmp : sae.tmp = some tmp) (hpk : tmp.ap_pk = none) :
    sae_write_confirm_pk C sae buf = some (0, buf) := by
  simp only [sae_write_confirm_pk, htmp, hpk]

/-- C9 witness. -/
theorem write_confirm_bad_kek_witness :
    (sae24.tmp = some tmp24 ∧ tmp24.ap_pk = some pk1 ∧ tmp24.kek_len = 24) ∧
    sae_write_confirm_pk cryptoZero sae24 roomyBuf = some (-1, roomyBuf) :=
  ⟨⟨rfl, rfl, rfl⟩,
    write_confirm_bad_kek cryptoZero sae24 roomyBuf tmp24 pk1 rfl rfl
      (by decide)⟩

/-- C10 witness. -/
theorem write_confirm_no_container_witness :
    (saeNoPk.tmp = some tmpNoPk ∧ tmpNoPk.ap_pk = none) ∧
    sae_write_confirm_pk cryptoZero saeNoPk fullBuf = some (0, fullBuf) :=
  ⟨⟨rfl, rfl⟩,
    write_confirm_no_container cryptoZero saeNoPk fullBuf tmpNoPk rfl rfl⟩

/-- C1: the NoRoom check of sae_write_confirm_pk is wrong.  The code
compares the tailroom of the scratch element buffer (freshly allocated with
1500 + |sig| octets of capacity) against 6 + the current length of the
caller's buffer, instead of comparing the caller's tailroom against
6 + the element length.  With a caller buffer that has zero tailroom the
check passes and the code proceeds to append, so the build aborts in
wpabuf_put (modelled as none) instead of failing cleanly with NoRoom
(which would be some (-1, fullBuf) with the buffer unchanged). -/
theorem write_confirm_noroom_bug :
    wpabuf_tailroom fullBuf = 0 ∧
    sae_write_confirm_pk cryptoZero sae1 fullBuf = none ∧
    sae_write_confirm_pk cryptoZero sae1 fullBuf ≠ some (-1, fullBuf) := by
  decide

/-! ## Theorems: parser pre-checks (C2) -/

/-- C2 amended: when SAE-PK is not enabled for the session or an AP key is
already pinned, sae_check_confirm_pk returns 0 (a silent no-op); when those
two pre-checks pass but the kek length is not in {32, 48, 64}, or the
session does not use an ECC group, it returns -1. -/
theorem check_confirm_prechecks (C : Crypto) (sae : SaeData) (ies : List Nat)
    (tmp : SaeTmp) (htmp : sae.tmp = some tmp) :
    (sae.pk = false ∨ tmp.ap_pk.isSome → sae_check_confirm_pk C sae ies = 0) ∧
    (sae.pk = true → tmp.ap_pk = none →
      tmp.kek_len ≠ 32 ∧ tmp.kek_len ≠ 48 ∧ tmp.kek_len ≠ 64 →
      sae_check_confirm_pk C sae ies = -1) ∧
    (sae.pk = true → tmp.ap_pk = none → tmp.ec = false →
      sae_check_confirm_pk C sae ies = -1) := by
  refine ⟨?_, ?_, ?_⟩
  · intro h
    simp only [sae_check_confirm_pk, htmp]
    rw [if_pos h]
  · intro hpk hap hkek
    simp only [sae_check_confirm_pk, htmp]
    rw [if_neg (by simp [hpk, hap]), if_pos hkek]
  · intro hpk hap hec
    simp only [sae_check_confirm_pk, htmp]
    rw [if_neg (by simp [hpk, hap])]
    by_cases hkek : tmp.kek_len ≠ 32 ∧ tmp.kek_len ≠ 48 ∧ tmp.kek_len ≠ 64
    · rw [if_pos hkek]
    · rw [if_neg hkek, if_pos hec]

/-- C2 counterexample: SAE-PK not enabled is a pre-check failure per the
claim, yet the parser returns 0, not the error sentinel -1. -/
theorem check_confirm_disabled_returns_zero :
    sae_check_confirm_pk cryptoZero saeDisabled [] = 0 ∧
    sae_check_confirm_pk cryptoZero saeDisabled [] ≠ -1 := by
  decide

/-- C2 witness. -/
theorem check_confirm_prechecks_witness :
    saeDisabled.tmp = some tmpCheck ∧
    sae_check_confirm_pk cryptoZero saeDisabled [] = 0 :=
  ⟨rfl,
    (check_confirm_prechecks cryptoZero saeDisabled [] tmpCheck rfl).1
      (Or.inl rfl)⟩

/-! ## Theorems: fingerprint verifier (C4) -/

theorem getD_set_list (l : List Nat) (i j v : Nat) :
    (l.set i v).getD j 0 = if j = i ∧ i < l.length then v else l.getD j 0 := by
  by_cases h : j = i ∧ i < l.length
  · obtain ⟨rfl, hlt⟩ := h
    rw [if_pos ⟨rfl, hlt⟩, List.getD_eq_getElem?_getD, List.getElem?_set_self hlt]
    rfl
  · rw [if_neg h]
    by_cases hji : j = i
    · subst hji
      have hge : l.length ≤ j := by
        by_contra hcon
        exact h ⟨rfl, by omega⟩
      rw [List.set_eq_of_length_le hge]
    · rw [List.getD_eq_getElem?_getD, List.getD_eq_getElem?_getD,
        List.getElem?_set_ne (fun he => hji he.symm)]

theorem take_eq_iff_getD : ∀ (n : Nat) (l1 l2 : List Nat), n ≤ l1.length →
    n ≤ l2.length →
    (l1.take n = l2.take n ↔ ∀ j < n, l1.getD j 0 = l2.getD j 0) := by
  intro n
  induction n with
  | zero => intro l1 l2 _ _; simp
  | succ m ih =>
    intro l1 l2 h1 h2
    cases l1 with
    | nil => simp at h1
    | cons a l1 =>
      cases l2 with
      | nil => simp at h2
      | cons b l2 =>
        simp only [List.length_cons] at h1 h2
        rw [List.take_succ_cons, List.take_succ_cons]
        constructor
        · intro h j hj
          injection h with hab htail
          match j, hj with
          | 0, _ => simpa using hab
          | j + 1, hj =>
            simp only [List.getD_cons_succ]
            exact (ih l1 l2 (by omega) (by omega)).mp htail j (by omega)
        · intro h
          have hab := h 0 (by omega)
          simp only [List.getD_cons_zero] at hab
          rw [hab]
          congr 1
          refine (ih l1 l2 (by omega) (by omega)).mpr ?_
          intro j hj
          have hj1 := h (j + 1) (by omega)
          simpa [List.getD_cons_succ] using hj1

theorem getD_zeros_map (sec pwlen : Nat) (f : Nat → Nat) (j : Nat) :
    j < sec + pwlen →
    (List.replicate sec 0 ++ (List.range pwlen).map f).getD j 0 =
    if j < sec then 0 else f (j - sec) := by
  intro hj
  rw [List.getD_eq_getElem?_getD, List.getElem?_append]
  simp only [List.length_replicate]
  by_cases h : j < sec
  · rw [if_pos h, if_pos h]
    simp [List.getElem?_replicate, h]
  · rw [if_neg h, if_neg h]
    have hlt : j - sec < pwlen := by omega
    rw [List.getElem?_map]
    simp [hlt]

/-- C4: the fingerprint verifier returns false when the decoded password is
empty or the fingerprint is wider than the hash output; otherwise it
returns true iff the first ceil(bits/8) octets of Hash(ssid ‖ m ‖ k_ap) —
with the low 8 - bits mod 8 bits of octet bits/8 cleared when bits mod 8
is not zero — equal Sec zero octets followed by the password shifted left
by two bits. -/
theorem valid_fingerprint_iff (C : Crypto) (tmp : SaeTmp) (m k_ap : List Nat)
    (group : Nat)
    (hC : ∀ n d, (C.hash n d).length = n)
    (hgroup : group = 19 ∨ group = 20 ∨ group = 21) :
    (tmp.pw = [] → sae_pk_valid_fingerprint C tmp m k_ap group = false) ∧
    (sae_group_2_hash_len group * 8 < fpBits tmp.pw tmp.lambda →
      sae_pk_valid_fingerprint C tmp m k_ap group = false) ∧
    (tmp.pw ≠ [] →
      fpBytes tmp.pw tmp.lambda ≤ fpSec tmp.pw + tmp.pw.length →
      (sae_pk_valid_fingerprint C tmp m k_ap group = true ↔
        fpBits tmp.pw tmp.lambda ≤ sae_group_2_hash_len group * 8 ∧
        ∀ j < fpBytes tmp.pw tmp.lambda,
          fpHashAdjusted C tmp m k_ap group j = fpExpected tmp.pw j)) := by
  have hhl : sae_group_2_hash_len group = 32 ∨ sae_group_2_hash_len group = 48 ∨
      sae_group_2_hash_len group = 64 := by
    rcases hgroup with rfl | rfl | rfl <;> simp [sae_group_2_hash_len]
  have hsae : sae_hash C (sae_group_2_hash_len group) (tmp.ssid ++ m ++ k_ap) =
      some (C.hash (sae_group_2_hash_len group) (tmp.ssid ++ m ++ k_ap)) := by
    unfold sae_hash
    rw [if_pos hhl]
  refine ⟨?_, ?_, ?_⟩
  · intro hpw
    simp [sae_pk_valid_fingerprint, hpw]
  · intro hover
    have hover2 : sae_group_2_hash_len group * 8 <
        8 * ((tmp.pw.getD 0 0 >>> 6) + 2) + 5 * tmp.lambda - 2 := by
      simpa [fpBits, fpSec] using hover
    unfold sae_pk_valid_fingerprint
    by_cases hlen : tmp.pw.length < 1
    · rw [if_pos hlen]
    · rw [if_neg hlen]
      simp only [hsae]
      rw [if_pos hover2]
  · intro hne hfb
    have hpwpos : 0 < tmp.pw.length := List.length_pos.mpr hne
    have hlen : ¬ tmp.pw.length < 1 := by omega
    have hHlen := hC (sae_group_2_hash_len group) (tmp.ssid ++ m ++ k_ap)
    have hfb2 : (8 * ((tmp.pw.getD 0 0 >>> 6) + 2) + 5 * tmp.lambda - 2 + 7) / 8 ≤
        ((tmp.pw.getD 0 0 >>> 6) + 2) + tmp.pw.length := by
      simpa [fpBytes, fpBits, fpSec] using hfb
    unfold sae_pk_valid_fingerprint
    rw [if_neg hlen]
    simp only [hsae]
    by_cases hover : sae_group_2_hash_len group * 8 <
        8 * ((tmp.pw.getD 0 0 >>> 6) + 2) + 5 * tmp.lambda - 2
    · rw [if_pos hover]
      constructor
      · intro hfalse
        exact absurd hfalse (by simp)
      · intro hrhs
        exfalso
        have h1 := hrhs.1
        simp only [fpBits, fpSec] at h1
        omega
    · rw [if_neg hover]
      simp only [decide_eq_true_eq]
      have hBle : fpBits tmp.pw tmp.lambda ≤ sae_group_2_hash_len group * 8 := by
        simp only [fpBits, fpSec]
        omega
      set hl := sae_group_2_hash_len group with hhl3
      set S := tmp.pw.getD 0 0 >>> 6 + 2 with hS
      set B := 8 * S + 5 * tmp.lambda - 2 with hB
      set hsh := C.hash hl (tmp.ssid ++ m ++ k_ap) with hhsh
      have hfpBits : fpBits tmp.pw tmp.lambda = B := by
        simp only [fpBits, fpSec]
      have hfpBytes : fpBytes tmp.pw tmp.lambda = (B + 7) / 8 := by
        simp only [fpBytes, fpBits, fpSec]
      have hadjdef : ∀ j, fpHashAdjusted C tmp m k_ap group j =
          (if B % 8 ≠ 0 ∧ j = B / 8 then
            (hsh.getD j 0 >>> (8 - B % 8)) <<< (8 - B % 8)
          else hsh.getD j 0) := by
        intro j
        simp only [fpHashAdjusted, fpBits, fpSec]
      have hexpdef : ∀ j, fpExpected tmp.pw j =
          (if j < S then 0
          else (tmp.pw.getD (j - S) 0 <<< 2 ||| tmp.pw.getD (j - S + 1) 0 >>> 6) % 256) := by
        intro j
        simp only [fpExpected, fpSec]
      rw [hfpBits, hfpBytes]
      simp only [hadjdef, hexpdef]
      have hfble : (B + 7) / 8 ≤ hl := by omega
      have hlen1 : (B + 7) / 8 ≤
          (if B % 8 ≠ 0 then
            hsh.set (B / 8) (hsh.getD (B / 8) 0 >>> (8 - B % 8) <<< (8 - B % 8))
          else hsh).length := by
        split
        · simpa [List.length_set, hHlen] using hfble
        · simpa [hHlen] using hfble
      have hlen2 : (B + 7) / 8 ≤
          (List.replicate S 0 ++
            List.map (fun i => (tmp.pw.getD i 0 <<< 2 ||| tmp.pw.getD (i + 1) 0 >>> 6) % 256)
              (List.range tmp.pw.length)).length := by
        simpa using hfb2
      rw [take_eq_iff_getD _ _ _ hlen1 hlen2]
      have hKey : ∀ j, j < (B + 7) / 8 →
          (if B % 8 ≠ 0 then
            hsh.set (B / 8) (hsh.getD (B / 8) 0 >>> (8 - B % 8) <<< (8 - B % 8))
          else hsh).getD j 0 =
          (if B % 8 ≠ 0 ∧ j = B / 8 then
            (hsh.getD j 0 >>> (8 - B % 8)) <<< (8 - B % 8)
          else hsh.getD j 0) := by
        intro j hj
        by_cases hm : B % 8 = 0
        · rw [if_neg (by simp [hm]), if_neg (by simp [hm])]
        · rw [if_pos hm, getD_set_list]
          by_cases hbj : j = B / 8
          · have hblt : B / 8 < hsh.length := by
              rw [hHlen]
              omega
            rw [if_pos ⟨hbj, hblt⟩, if_pos ⟨hm, hbj⟩, hbj]
          · rw [if_neg (by simp [hbj]), if_neg (by simp [hbj])]
      have hExp2 : ∀ j, j < (B + 7) / 8 →
          (List.replicate S 0 ++
            List.map (fun i => (tmp.pw.getD i 0 <<< 2 ||| tmp.pw.getD (i + 1) 0 >>> 6) % 256)
              (List.range tmp.pw.length)).getD j 0 =
          (if j < S then 0
          else (tmp.pw.getD (j - S) 0 <<< 2 ||| tmp.pw.getD (j - S + 1) 0 >>> 6) % 256) := by
        intro j hj
        exact getD_zeros_map S tmp.pw.length _ j (by omega)
      constructor
      · intro hpt
        refine ⟨by omega, ?_⟩
        intro j hj
        rw [← hKey j hj, ← hExp2 j hj]
        exact hpt j hj
      · rintro ⟨-, hpt⟩
        intro j hj
        rw [hKey j hj, hExp2 j hj]
        exact hpt j hj

/-- C4 witness. -/
theorem valid_fingerprint_iff_witness :
    (tmp1.pw ≠ [] ∧ fpBytes tmp1.pw tmp1.lambda ≤ fpSec tmp1.pw + tmp1.pw.length) ∧
    (sae_pk_valid_fingerprint cryptoZero tmp1 [] [] 19 = true ↔
      fpBits tmp1.pw tmp1.lambda ≤ sae_group_2_hash_len 19 * 8 ∧
      ∀ j < fpBytes tmp1.pw tmp1.lambda,
        fpHashAdjusted cryptoZero tmp1 [] [] 19 j = fpExpected tmp1.pw j) :=
  ⟨⟨by decide, by decide⟩,
    (valid_fingerprint_iff cryptoZero tmp1 [] [] 19
      (fun n d => by simp [cryptoZero]) (Or.inl rfl)).2.2 (by decide) (by decide)⟩
